import Mathlib

/-!
# Submission Engine: shallow embedding

Shallow embedding of the form submission engine (path algebra, tree
builder, intent resolver, structural mutator, error mapper, sequence-number
guard) of the `conform` repository, together with theorems settling the
specification claims.  The engine implementation itself is not part of the
reviewed sources (only documentation and a playground route are), so the
engine definitions below are modelled from the specification, faithful to
its words; each such definition's doc comment says so.
-/

set_option autoImplicit false

namespace Conform

/-- Raw character strings: field names, scalar values, messages. -/
abbrev Str := List Char

/-- Modelled from the spec: a path segment is either an object field name
or a non-negative list index (spec §3, Path Algebra §4.1). -/
inductive Seg where
  | key (k : Str)
  | idx (n : Nat)
  deriving DecidableEq, Repr

/-- Modelled from the spec: a path is an ordered sequence of segments. -/
abbrev Path := List Seg

/-- Separator characters of the path syntax. -/
def sepChar (c : Char) : Bool := c = '.' || c = '[' || c = ']'

/-- The character rendering a decimal digit. -/
def digitChar (d : Nat) : Char :=
  match d with
  | 0 => '0' | 1 => '1' | 2 => '2' | 3 => '3' | 4 => '4'
  | 5 => '5' | 6 => '6' | 7 => '7' | 8 => '8' | _ => '9'

/-- The decimal value of a digit character. -/
def digitVal (c : Char) : Nat := c.toNat - 48

/-- Decimal rendering of a natural number, most significant digit first,
without leading zeros. -/
def natToChars (n : Nat) : Str :=
  if n = 0 then ['0']
  else ((Nat.digits 10 n).map digitChar).reverse

/-- Decimal reading of a digit string, most significant digit first. -/
def charsToNat (cs : Str) : Nat :=
  cs.foldl (fun a c => 10 * a + digitVal c) 0

/-- Modelled from the spec: rendering of the first segment of a path
(object key bare, index bracketed), §4.1. -/
def formatSegFirst : Seg → Str
  | .key k => k
  | .idx n => '[' :: (natToChars n ++ [']'])

/-- Modelled from the spec: rendering of a non-first segment (`.` before an
object key, `[n]` for an index), §4.1. -/
def formatSegNext : Seg → Str
  | .key k => '.' :: k
  | .idx n => '[' :: (natToChars n ++ [']'])

/-- Modelled from the spec: `format(path) -> string`, §4.1. -/
def formatPath : Path → Str
  | [] => []
  | s :: rest => formatSegFirst s ++ (rest.map formatSegNext).flatten

/-- Reads the longest run of non-separator characters (an object key). -/
def readKey : Str → Str × Str
  | [] => ([], [])
  | c :: cs =>
    if sepChar c then ([], c :: cs)
    else
      let r := readKey cs
      (c :: r.1, r.2)

/-- Reads the longest run of decimal digit characters. -/
def readDigits : Str → Str × Str
  | [] => ([], [])
  | c :: cs =>
    if c.isDigit then
      let r := readDigits cs
      (c :: r.1, r.2)
    else ([], c :: cs)

/-- Modelled from the spec: the path scanner, §4.1.  The Boolean state is
`true` when a segment is expected (start of the string or just after a `.`)
and `false` just after a complete segment, where only `.`, `[` or the end
of input may follow.  Fails (`none`) on unbalanced brackets, an index that
is not a non-negative integer, or an empty segment.  `fuel` bounds the
recursion; `parsePath` supplies enough for any input. -/
def pRun : Nat → Bool → Str → Option Path
  | 0, _, _ => none
  | _ + 1, _, [] => some []
  | fuel + 1, seg, c :: cs =>
    if seg then
      if c = '[' then
        let d := readDigits cs
        if d.1 = [] then none
        else if d.2.head? = some ']' then
          (pRun fuel false d.2.tail).map (fun p => .idx (charsToNat d.1) :: p)
        else none
      else if sepChar c then none
      else
        let r := readKey (c :: cs)
        (pRun fuel false r.2).map (fun p => .key r.1 :: p)
    else
      if c = '.' then pRun fuel true cs
      else if c = '[' then pRun fuel true (c :: cs)
      else none

/-- Modelled from the spec: `parse(raw: string) -> Path`, splitting on `.`
and `[n]`; `none` plays the role of the `MalformedPath` failure, §4.1. -/
def parsePath (s : Str) : Option Path :=
  pRun (2 * s.length + 2) true s

/-- A canonical path as the spec defines it (§3): no empty segments;
indices carry no leading zeros by construction (they are naturals). -/
def canonicalPath (p : Path) : Bool :=
  p.all fun s => match s with
    | .key k => !k.isEmpty
    | .idx _ => true

/-- A path whose key segments contain no separator characters. -/
def sepFreePath (p : Path) : Bool :=
  p.all fun s => match s with
    | .key k => k.all fun c => !sepChar c
    | .idx _ => true

/-- The remainder of `p` after its ancestor-candidate `q`: `some rest`
when `p = q ++ rest`, `none` when `q` is not a prefix of `p` (§4.1
ancestor test). -/
def restAfter : Path → Path → Option Path
  | [], p => some p
  | _, [] => none
  | a :: q, b :: p => if a = b then restAfter q p else none

/-- `q` equals `p` or is a descendant of `p` (§3, §4.5). -/
def underPath (p q : Path) : Bool := (restAfter p q).isSome

/-- Modelled from the spec: a node of the structured form-data tree —
scalar, ordered list, or object with insertion-ordered fields (§3). -/
inductive ValueNode where
  | scalar (s : Str)
  | list (xs : List ValueNode)
  | obj (fields : List (Str × ValueNode))
  deriving Repr

/-- Modelled from the spec: the typed intents of §3/§4.3. -/
inductive Intent where
  | submit
  | validate (p : Option Path)
  | listInsert (p : Path) (i : Option Nat) (defaultValue : Option ValueNode)
  | listRemove (p : Path) (i : Nat)
  | listReorder (p : Path) (src : Nat) (dst : Nat)
  | listReplace (p : Path) (i : Nat) (v : ValueNode)
  deriving Repr

/-- Modelled from the spec: an error set maps paths to ordered message
lists (§3). -/
abbrev ErrorSet := List (Path × List Str)

/-! ## Tree access and update -/

/-- First field with the given key in an object's field list. -/
def lookupField (k : Str) : List (Str × ValueNode) → Option ValueNode
  | [] => none
  | f :: fs => if f.1 = k then some f.2 else lookupField k fs

/-- Rewrites the value of the first field with the given key. -/
def updField (k : Str) (g : ValueNode → ValueNode) :
    List (Str × ValueNode) → List (Str × ValueNode)
  | [] => []
  | f :: fs => if f.1 = k then (f.1, g f.2) :: fs else f :: updField k g fs

/-- Rewrites the element at a given position of a list, when present. -/
def updNth (g : ValueNode → ValueNode) : List ValueNode → Nat → List ValueNode
  | [], _ => []
  | x :: xs, 0 => g x :: xs
  | x :: xs, i + 1 => x :: updNth g xs i

/-- The node addressed by a path, when the walk succeeds (§3). -/
def getNode : ValueNode → Path → Option ValueNode
  | t, [] => some t
  | .obj fs, .key k :: rest =>
    match lookupField k fs with
    | some v => getNode v rest
    | none => none
  | .list xs, .idx i :: rest =>
    match xs.get? i with
    | some x => getNode x rest
    | none => none
  | _, _ => none

/-- Applies `f` to the list addressed by `p`; leaves the tree unchanged
when the walk fails or the addressed node is not a list. -/
def updAt (t : ValueNode) (p : Path) (f : List ValueNode → List ValueNode) :
    ValueNode :=
  match p, t with
  | [], .list xs => .list (f xs)
  | [], t => t
  | .key k :: rest, .obj fs => .obj (updField k (fun v => updAt v rest f) fs)
  | .idx i :: rest, .list xs => .list (updNth (fun x => updAt x rest f) xs i)
  | _, t => t

/-! ## Structural mutator (§4.4) -/

/-- Insertion at position `i` (clamped form is applied by the caller). -/
def insertAt (xs : List ValueNode) (i : Nat) (v : ValueNode) : List ValueNode :=
  xs.take i ++ v :: xs.drop i

/-- Removal of the element at position `i`. -/
def removeAt (xs : List ValueNode) (i : Nat) : List ValueNode :=
  xs.take i ++ xs.drop (i + 1)

/-- Modelled from the spec: `ListInsert` list transform — insert at `i`,
appending when the index is null or out of range (§4.4). -/
def listInsertOp (i : Option Nat) (v : ValueNode) (xs : List ValueNode) :
    List ValueNode :=
  match i with
  | none => xs ++ [v]
  | some i => if i ≤ xs.length then insertAt xs i v else xs ++ [v]

/-- Modelled from the spec: `ListRemove` list transform — delete at `i`
when present, no-op otherwise (§4.4). -/
def listRemoveOp (i : Nat) (xs : List ValueNode) : List ValueNode :=
  if i < xs.length then removeAt xs i else xs

/-- Modelled from the spec: `ListReorder` list transform — remove at `src`
and reinsert at `dst`; no-op when `src = dst` or either index is out of
bounds (§4.4). -/
def listReorderOp (src dst : Nat) (xs : List ValueNode) : List ValueNode :=
  if src = dst then xs
  else
    match xs.get? src with
    | none => xs
    | some x => if dst < xs.length then insertAt (removeAt xs src) dst x else xs

/-- Modelled from the spec: `ListReplace` list transform — overwrite in
place, no shifting; no-op out of range (§4.4). -/
def listReplaceOp (i : Nat) (v : ValueNode) (xs : List ValueNode) :
    List ValueNode :=
  if i < xs.length then updNth (fun _ => v) xs i else xs

/-- Modelled from the spec: the structural mutator, a pure total function
of tree and intent (§4.4).  `Submit` and `Validate` are the identity. -/
def applyIntent (t : ValueNode) : Intent → ValueNode
  | .submit => t
  | .validate _ => t
  | .listInsert p i v => updAt t p (listInsertOp i (v.getD (.scalar [])))
  | .listRemove p i => updAt t p (listRemoveOp i)
  | .listReorder p src dst => updAt t p (listReorderOp src dst)
  | .listReplace p i v => updAt t p (listReplaceOp i v)

/-! ## Tree builder (§4.2) -/

/-- Modelled from the spec: terminal write of §4.2 — a fresh scalar; a
second value at the identical path promotes the scalar to a list
preserving arrival order; conflicting container kinds follow
last-write-wins. -/
def insertTerminal : Option ValueNode → Str → ValueNode
  | none, v => .scalar v
  | some (.scalar s), v => .list [.scalar s, .scalar v]
  | some (.list xs), v => .list (xs ++ [.scalar v])
  | some (.obj _), v => .scalar v

/-- Sets the first field with the given key, appending a new field when
the key is absent (insertion order preserved, §3). -/
def setFieldVal (k : Str) (v : ValueNode) :
    List (Str × ValueNode) → List (Str × ValueNode)
  | [] => [(k, v)]
  | f :: fs => if f.1 = k then (k, v) :: fs else f :: setFieldVal k v fs

/-- Modelled from the spec: one tree-builder step (§4.2) — walk or create
intermediate containers along the path, inferring the container kind from
the next segment; the current node is `none` where nothing exists yet. -/
def setPath (cur : Option ValueNode) (p : Path) (v : Str) : ValueNode :=
  match p with
  | [] => insertTerminal cur v
  | .key k :: rest =>
    match cur with
    | some (.obj fs) => .obj (setFieldVal k (setPath (lookupField k fs) rest v) fs)
    | _ => .obj [(k, setPath none rest v)]
  | .idx i :: rest =>
    match cur with
    | some (.list xs) =>
      if i < xs.length then .list (updNth (fun x => setPath (some x) rest v) xs i)
      else .list (xs ++ List.replicate (i - xs.length) (.scalar []) ++ [setPath none rest v])
    | _ => .list (List.replicate i (.scalar []) ++ [setPath none rest v])

/-- Modelled from the spec: the tree builder (§4.2) — folds the ordered
flat pairs into a root object; a pair whose path is malformed is skipped
(the local `MalformedPath` recovery of §7). -/
def buildTree (pairs : List (Str × Str)) : ValueNode :=
  pairs.foldl
    (fun t pr =>
      match parsePath pr.1 with
      | none => t
      | some p => setPath (some t) p pr.2)
    (.obj [])

/-! ## Intent resolver (§4.3) -/

/-- Modelled from the spec: the reserved intent-carrier field name
(`conform.INTENT`, src/docs/intent-button.md); the module defining the
literal is not among the reviewed sources. -/
def INTENT : Str := "__intent__".data

/-- Reads a decimal natural from an argument string. -/
def parseNatStr (s : Str) : Option Nat :=
  if s ≠ [] && s.all Char.isDigit then some (charsToNat s) else none

/-- Modelled from the spec: the intent-carrier string grammar of §4.3 —
`submit`, `validate(<path>)`, `list-insert(<path>,<index?>)`,
`list-remove(<path>,<index>)`, `list-reorder(<path>,<from>,<to>)`,
`list-replace(<path>,<index>)`.  The replace value travels outside the
carrier string, so is modelled as an empty scalar here. -/
def parseIntentStr (s : Str) : Option Intent :=
  if s = "submit".data then some .submit
  else
    match s.splitOn '(' with
    | [name, rest] =>
      if rest.getLast? = some ')' then
        let args := rest.dropLast
        if name = "validate".data then
          if args = [] then some (.validate none)
          else (parsePath args).map (fun p => .validate (some p))
        else if name = "list-insert".data then
          match args.splitOn ',' with
          | [ps] => (parsePath ps).map (fun p => .listInsert p none none)
          | [ps, istr] =>
            match parsePath ps, parseNatStr istr with
            | some p, some i => some (.listInsert p (some i) none)
            | _, _ => none
          | _ => none
        else if name = "list-remove".data then
          match args.splitOn ',' with
          | [ps, istr] =>
            match parsePath ps, parseNatStr istr with
            | some p, some i => some (.listRemove p i)
            | _, _ => none
          | _ => none
        else if name = "list-reorder".data then
          match args.splitOn ',' with
          | [ps, astr, bstr] =>
            match parsePath ps, parseNatStr astr, parseNatStr bstr with
            | some p, some a, some b => some (.listReorder p a b)
            | _, _, _ => none
          | _ => none
        else if name = "list-replace".data then
          match args.splitOn ',' with
          | [ps, istr] =>
            match parsePath ps, parseNatStr istr with
            | some p, some i => some (.listReplace p i (.scalar []))
            | _, _ => none
          | _ => none
        else none
      else none
    | _ => none

/-- Modelled from the spec: intent resolution (§4.3, §7) — an absent
carrier defaults to `Submit`; a malformed carrier string signals
`UnknownIntent` (the Boolean flag) and falls back to `Submit`, never
failing the submission. -/
def resolveIntent : Option Str → Intent × Bool
  | none => (.submit, false)
  | some s =>
    match parseIntentStr s with
    | some i => (i, false)
    | none => (.submit, true)

/-- The value of the first pair carried under the reserved field name. -/
def findCarrier : List (Str × Str) → Option Str
  | [] => none
  | pr :: rest => if pr.1 = INTENT then some pr.2 else findCarrier rest

/-- Modelled from the spec: the carrier field is stripped from the
payload pairs before the tree reaches the validator (§4.3). -/
def removeCarrier : List (Str × Str) → List (Str × Str)
  | [] => []
  | pr :: rest => if pr.1 = INTENT then removeCarrier rest else pr :: removeCarrier rest

/-! ## Error mapper (§4.5) -/

/-- Modelled from the spec: index shift of an error path under
`ListInsert` at `i` — a sibling index at or after `i` moves one position
later (§4.1, §4.4). -/
def shiftInsert (q : Path) (i : Nat) (p : Path) : Path :=
  match restAfter q p with
  | some (.idx j :: tail) => if i ≤ j then q ++ .idx (j + 1) :: tail else p
  | _ => p

/-- Modelled from the spec: index shift of an error path under
`ListRemove` at `i` — the removed index no longer exists (`none`), later
siblings move one position earlier (§4.1, §4.4). -/
def shiftRemove (q : Path) (i : Nat) (p : Path) : Option Path :=
  match restAfter q p with
  | some (.idx j :: tail) =>
    if j = i then none
    else if i < j then some (q ++ .idx (j - 1) :: tail)
    else some p
  | _ => some p

/-- Modelled from the spec: index shift of an error path under
`ListReorder`, the remove-then-insert composite of §4.4. -/
def shiftReorder (q : Path) (src dst : Nat) (p : Path) : Path :=
  match restAfter q p with
  | some (.idx j :: tail) =>
    if src = dst then p
    else
      let jd := if j = src then dst
        else if dst ≤ (if src < j then j - 1 else j)
          then (if src < j then j - 1 else j) + 1
          else (if src < j then j - 1 else j)
      q ++ .idx jd :: tail
  | _ => p

/-- Modelled from the spec: the index-shift transform applied to a
previous error path for a given intent (§4.5); `none` drops the error. -/
def shiftForIntent : Intent → Path → Option Path
  | .listInsert q (some i) _, p => some (shiftInsert q i p)
  | .listInsert _ none _, p => some p
  | .listRemove q i, p => shiftRemove q i p
  | .listReorder q src dst, p => some (shiftReorder q src dst p)
  | _, p => some p

/-- Modelled from the spec: re-addressing of the previous error set
through the same index-shift transform the mutator applied to the tree;
errors addressed to a removed index are dropped (§4.5). -/
def readdressErrors (intent : Intent) (es : ErrorSet) : ErrorSet :=
  es.filterMap fun e => (shiftForIntent intent e.1).map (fun p => (p, e.2))

/-- Modelled from the spec: the Error Mapper output policy (§4.5).
`Submit` and `Validate(null)` take the raw set whole; `Validate(p)`
replaces only the errors at or under `p`; a list mutation re-addresses
the previous errors (the optional revalidation is modelled as skipped). -/
def mapErrors (intent : Intent) (prev raw : ErrorSet) : ErrorSet :=
  match intent with
  | .submit => raw
  | .validate none => raw
  | .validate (some p) =>
    prev.filter (fun e => !underPath p e.1) ++ raw.filter (fun e => underPath p e.1)
  | other => readdressErrors other prev

/-- First message list recorded for a path in an error set. -/
def errLookup (q : Path) : ErrorSet → Option (List Str)
  | [] => none
  | e :: es => if e.1 = q then some e.2 else errLookup q es

/-! ## Submission result and pipeline (§2, §4.5) -/

/-- Modelled from the spec: the immutable submission record (§3). -/
structure SubmissionResult where
  intent : Intent
  payload : ValueNode
  errors : ErrorSet
  accepted : Bool

/-- Whether an intent is terminal (§4.5). -/
def isSubmit : Intent → Bool
  | .submit => true
  | _ => false

/-- Modelled from the spec: the full submission pipeline (§2 control
flow) — carrier resolution, carrier stripping, tree building, structural
mutation, validation of the mutated tree, error mapping, and the
accepted verdict of §4.5. -/
def processSubmission (pairs : List (Str × Str)) (prev : ErrorSet)
    (validator : ValueNode → ErrorSet) : SubmissionResult :=
  let intent := (resolveIntent (findCarrier pairs)).1
  let tree := applyIntent (buildTree (removeCarrier pairs)) intent
  let errors := mapErrors intent prev (validator tree)
  ⟨intent, tree, errors, isSubmit intent && errors.isEmpty⟩

/-! ## Sequence-number guard (§5) -/

/-- Modelled from the spec: the engine's only persistent state — the
monotonically increasing submission sequence number and the last applied
validation response (§5). -/
structure EngineState where
  latest : Nat
  lastApplied : Option (Nat × ErrorSet)
  deriving DecidableEq, Repr

/-- A submission event or an asynchronous validation response. -/
inductive FormEvent where
  | submit
  | response (seq : Nat) (errs : ErrorSet)
  deriving DecidableEq, Repr

/-- Modelled from the spec: the sequence-number guard (§5) — a submission
is tagged `latest + 1` at intent-resolution time; a validation response
is applied only when its tag equals the current latest, and is otherwise
discarded silently. -/
def stepEngine (st : EngineState) : FormEvent → EngineState
  | .submit => ⟨st.latest + 1, st.lastApplied⟩
  | .response seq errs =>
    if seq = st.latest then ⟨st.latest, some (seq, errs)⟩ else st

/-- The engine state reached from the initial state by a list of events. -/
def runEngine (evs : List FormEvent) : EngineState :=
  evs.foldl stepEngine ⟨0, none⟩

/-! ## The payment route (src/playground/app/routes/payment.tsx) -/

/-- Modelled from the spec: `parse(formData, { schema })` of
`@conform-to/zod` — builds the submission from the raw form data with no
previous errors, the schema acting as the pluggable validator; the
package itself is not among the reviewed sources. -/
def parseWith (fd : List (Str × Str)) (schema : ValueNode → ErrorSet) :
    SubmissionResult :=
  processSubmission fd [] schema

/-- A required-scalar check: an error at `p` unless a non-empty scalar
sits there. -/
def requiredScalar (t : ValueNode) (p : Path) (msg : Str) : ErrorSet :=
  match getNode t p with
  | some (.scalar s) => if s = [] then [(p, [msg])] else []
  | _ => [(p, [msg])]

/-- Modelled from the spec: the zod schema of the payment route
(payment.tsx lines 9-24), abstracted to its required-field checks. -/
def paymentSchema (t : ValueNode) : ErrorSet :=
  requiredScalar t [.key "iban".data] "IBAN is required".data
    ++ requiredScalar t [.key "amount".data, .key "currency".data]
      "Please select a currency".data
    ++ requiredScalar t [.key "amount".data, .key "value".data]
      "Value is required".data
    ++ requiredScalar t [.key "timestamp".data] "Timestamp is required".data
    ++ requiredScalar t [.key "verified".data] "Please verify".data

/-- The server action of the payment route: `parse(formData, { schema })`
(payment.tsx lines 30-35). -/
def paymentAction (fd : List (Str × Str)) : SubmissionResult :=
  parseWith fd paymentSchema

/-- The client `onValidate` callback of the payment route:
`parse(formData, { schema })` (payment.tsx lines 44-46). -/
def paymentOnValidate (fd : List (Str × Str)) : SubmissionResult :=
  parseWith fd paymentSchema

/-! ## List permutation lemmas -/

theorem insertAt_perm (xs : List ValueNode) (i : Nat) (v : ValueNode) :
    (insertAt xs i v).Perm (v :: xs) := by
  have h1 : (xs.take i ++ v :: xs.drop i).Perm (v :: (xs.take i ++ xs.drop i)) :=
    List.perm_middle
  rw [List.take_append_drop] at h1
  exact h1

theorem take_cons_drop : ∀ (xs : List ValueNode) (i : Nat) (x : ValueNode),
    xs.get? i = some x → xs.take i ++ x :: xs.drop (i + 1) = xs := by
  intro xs
  induction xs with
  | nil => intro i x h; cases i <;> exact Option.noConfusion h
  | cons y xs ih =>
    intro i x h
    cases i with
    | zero =>
      have h' : y = x := by injection h
      subst h'
      rfl
    | succ i =>
      show y :: (xs.take i ++ x :: xs.drop (i + 1)) = y :: xs
      rw [ih i x h]

theorem cons_removeAt_perm (xs : List ValueNode) (i : Nat) (x : ValueNode)
    (h : xs.get? i = some x) : (x :: removeAt xs i).Perm xs := by
  have h1 : (x :: (xs.take i ++ xs.drop (i + 1))).Perm
      (xs.take i ++ x :: xs.drop (i + 1)) := List.perm_middle.symm
  rw [take_cons_drop xs i x h] at h1
  exact h1

theorem listReorderOp_perm (src dst : Nat) (xs : List ValueNode) :
    (listReorderOp src dst xs).Perm xs := by
  unfold listReorderOp
  by_cases hsd : src = dst
  · simp [hsd]
  · rw [if_neg hsd]
    cases hx : xs.get? src with
    | none => exact List.Perm.refl xs
    | some x =>
      show (if dst < xs.length then insertAt (removeAt xs src) dst x
        else xs).Perm xs
      by_cases hd : dst < xs.length
      · rw [if_pos hd]
        exact (insertAt_perm _ dst x).trans (cons_removeAt_perm xs src x hx)
      · rw [if_neg hd]


/-! ## Decimal rendering lemmas -/

theorem digitVal_digitChar {d : Nat} (h : d < 10) : digitVal (digitChar d) = d := by
  interval_cases d <;> rfl

theorem isDigit_digitChar {d : Nat} (h : d < 10) : (digitChar d).isDigit = true := by
  interval_cases d <;> rfl

theorem natToChars_ne_nil (n : Nat) : natToChars n ≠ [] := by
  unfold natToChars
  by_cases h : n = 0
  · simp [h]
  · simp [h, Nat.digits_ne_nil_iff_ne_zero.mpr h]

theorem natToChars_digits (n : Nat) : ∀ c ∈ natToChars n, c.isDigit = true := by
  intro c hc
  unfold natToChars at hc
  by_cases h : n = 0
  · simp [h] at hc
    simp [hc]
  · simp only [h, if_false, List.mem_reverse, List.mem_map] at hc
    obtain ⟨d, hd, rfl⟩ := hc
    exact isDigit_digitChar (Nat.digits_lt_base (by norm_num) hd)

theorem foldr_digitVal_digitChar : ∀ l : List Nat, (∀ d ∈ l, d < 10) →
    List.foldr (fun d a => 10 * a + digitVal (digitChar d)) 0 l = Nat.ofDigits 10 l := by
  intro l
  induction l with
  | nil => intro _; simp [Nat.ofDigits]
  | cons d l ih =>
    intro h
    have hd : d < 10 := h d (by simp)
    simp only [List.foldr_cons, Nat.ofDigits_cons,
      ih (fun x hx => h x (by simp [hx])), digitVal_digitChar hd]
    omega

theorem charsToNat_natToChars (n : Nat) : charsToNat (natToChars n) = n := by
  by_cases h : n = 0
  · simp [h, natToChars, charsToNat, digitVal]
  · unfold natToChars charsToNat
    rw [if_neg h, List.foldl_reverse, List.foldr_map,
      foldr_digitVal_digitChar _ (fun d hd => Nat.digits_lt_base (by norm_num) hd),
      Nat.ofDigits_digits]

/-! ## Reader lemmas -/

theorem readKey_append : ∀ (k rest : Str), (∀ c ∈ k, sepChar c = false) →
    (∀ c ∈ rest.head?, sepChar c = true) → readKey (k ++ rest) = (k, rest) := by
  intro k
  induction k with
  | nil =>
    intro rest _ hrest
    cases rest with
    | nil => rfl
    | cons c cs =>
      have : sepChar c = true := hrest c (by simp)
      simp [readKey, this]
  | cons c k ih =>
    intro rest hk hrest
    have hc : sepChar c = false := hk c (by simp)
    simp [readKey, hc, ih rest (fun x hx => hk x (by simp [hx])) hrest]

theorem readDigits_append : ∀ (d rest : Str), (∀ c ∈ d, c.isDigit = true) →
    (∀ c ∈ rest.head?, c.isDigit = false) → readDigits (d ++ rest) = (d, rest) := by
  intro d
  induction d with
  | nil =>
    intro rest _ hrest
    cases rest with
    | nil => rfl
    | cons c cs =>
      have : c.isDigit = false := hrest c (by simp)
      simp [readDigits, this]
  | cons c d ih =>
    intro rest hd hrest
    have hc : c.isDigit = true := hd c (by simp)
    simp [readDigits, hc, ih rest (fun x hx => hd x (by simp [hx])) hrest]

/-! ## Path scanner step lemmas -/

theorem pRun_key (k F : Str) (fuel : Nat) (hk : k ≠ [])
    (hsep : ∀ c ∈ k, sepChar c = false) (hF : ∀ c ∈ F.head?, sepChar c = true) :
    pRun (fuel + 1) true (k ++ F)
      = (pRun fuel false F).map (fun p => Seg.key k :: p) := by
  cases k with
  | nil => exact absurd rfl hk
  | cons c k =>
    have hc : sepChar c = false := hsep c (by simp)
    have hcb : ¬ c = '[' := by
      intro h
      subst h
      simp [sepChar] at hc
    show pRun (fuel + 1) true (c :: (k ++ F)) = _
    simp only [pRun, if_true]
    rw [if_neg hcb, if_neg (by simp [hc])]
    have hr : readKey (c :: (k ++ F)) = (c :: k, F) :=
      readKey_append (c :: k) F hsep hF
    rw [hr]

theorem pRun_idx (n : Nat) (F : Str) (fuel : Nat) :
    pRun (fuel + 1) true ('[' :: (natToChars n ++ (']' :: F)))
      = (pRun fuel false F).map (fun p => Seg.idx n :: p) := by
  have hd : readDigits (natToChars n ++ (']' :: F)) = (natToChars n, ']' :: F) := by
    refine readDigits_append (natToChars n) (']' :: F) (natToChars_digits n) ?_
    intro c hc
    simp at hc
    subst hc
    rfl
  simp only [pRun, if_true]
  rw [hd]
  simp [natToChars_ne_nil n, charsToNat_natToChars]

theorem pRun_dot (fuel : Nat) (cs : Str) :
    pRun (fuel + 1) false ('.' :: cs) = pRun fuel true cs := by
  simp [pRun]

theorem pRun_brk (fuel : Nat) (cs : Str) :
    pRun (fuel + 1) false ('[' :: cs) = pRun fuel true ('[' :: cs) := by
  simp only [pRun, if_false]
  rw [if_neg (show ¬ ('[' = '.') by decide)]
  simp

theorem head_sep_flatten (ps : Path) :
    ∀ c ∈ ((ps.map formatSegNext).flatten).head?, sepChar c = true := by
  cases ps with
  | nil => intro c hc; simp at hc
  | cons s ps =>
    cases s with
    | key k =>
      intro c hc
      simp [formatSegNext] at hc
      subst hc
      rfl
    | idx n =>
      intro c hc
      simp [formatSegNext] at hc
      subst hc
      rfl

theorem canonicalPath_cons {s : Seg} {ps : Path}
    (h : canonicalPath (s :: ps) = true) : canonicalPath ps = true := by
  simp only [canonicalPath, List.all_cons, Bool.and_eq_true] at h
  exact h.2

theorem sepFreePath_cons {s : Seg} {ps : Path}
    (h : sepFreePath (s :: ps) = true) : sepFreePath ps = true := by
  simp only [sepFreePath, List.all_cons, Bool.and_eq_true] at h
  exact h.2

theorem canonicalPath_key {k : Str} {ps : Path}
    (h : canonicalPath (.key k :: ps) = true) : k ≠ [] := by
  simp only [canonicalPath, List.all_cons, Bool.and_eq_true] at h
  have := h.1
  simp only [Bool.not_eq_true'] at this
  intro hk
  subst hk
  simp at this

theorem sepFreePath_key {k : Str} {ps : Path}
    (h : sepFreePath (.key k :: ps) = true) : ∀ c ∈ k, sepChar c = false := by
  simp only [sepFreePath, List.all_cons, Bool.and_eq_true] at h
  have := h.1
  simp only [List.all_eq_true, Bool.not_eq_true'] at this
  exact this

theorem pRun_tail : ∀ (ps : Path) (fuel : Nat), canonicalPath ps = true →
    sepFreePath ps = true →
    2 * ((ps.map formatSegNext).flatten).length + 1 ≤ fuel →
    pRun fuel false ((ps.map formatSegNext).flatten) = some ps := by
  intro ps
  induction ps with
  | nil =>
    intro fuel _ _ hf
    match fuel, hf with
    | f + 1, _ => rfl
  | cons s ps ih =>
    intro fuel hcan hsep hf
    cases s with
    | key k =>
      have hflat : (((Seg.key k :: ps)).map formatSegNext).flatten
          = '.' :: (k ++ ((ps.map formatSegNext).flatten)) := by
        simp [formatSegNext]
      rw [hflat] at hf ⊢
      simp only [List.length_cons, List.length_append] at hf
      obtain ⟨f, rfl⟩ : ∃ f, fuel = f + 2 := ⟨fuel - 2, by omega⟩
      rw [show f + 2 = (f + 1) + 1 from rfl, pRun_dot,
        pRun_key k _ f (canonicalPath_key hcan) (sepFreePath_key hsep)
          (head_sep_flatten ps),
        ih f (canonicalPath_cons hcan) (sepFreePath_cons hsep) (by omega)]
      rfl
    | idx n =>
      have hn : 1 ≤ (natToChars n).length :=
        List.length_pos.mpr (natToChars_ne_nil n)
      have hflat : (((Seg.idx n :: ps)).map formatSegNext).flatten
          = '[' :: (natToChars n ++ (']' :: ((ps.map formatSegNext).flatten))) := by
        simp [formatSegNext]
      rw [hflat] at hf ⊢
      simp only [List.length_cons, List.length_append] at hf
      obtain ⟨f, rfl⟩ : ∃ f, fuel = f + 2 := ⟨fuel - 2, by omega⟩
      rw [show f + 2 = (f + 1) + 1 from rfl, pRun_brk, pRun_idx n _ f,
        ih f (canonicalPath_cons hcan) (sepFreePath_cons hsep) (by omega)]
      rfl

/-- C3 counterexample: the path whose single key segment is the string
`a.b` is canonical in the spec's sense (no empty segments, indices
without leading zeros), yet `parse` re-splits the formatted string at the
embedded dot, so the round trip does not return the original path. -/
theorem c3_roundTrip_counterexample :
    canonicalPath [Seg.key ['a', '.', 'b']] = true ∧
    parsePath (formatPath [Seg.key ['a', '.', 'b']])
      ≠ some [Seg.key ['a', '.', 'b']] := by
  constructor
  · decide
  · decide

/-- C3 (amended): for every canonical path whose key segments contain no
separator characters (`.`, `[`, `]`), `parse(format(p)) = p`. -/
theorem c3_parse_format_roundTrip (p : Path) (hcan : canonicalPath p = true)
    (hsep : sepFreePath p = true) : parsePath (formatPath p) = some p := by
  cases p with
  | nil => rfl
  | cons s ps =>
    cases s with
    | key k =>
      have hflat : formatPath (Seg.key k :: ps)
          = k ++ ((ps.map formatSegNext).flatten) := rfl
      rw [hflat]
      unfold parsePath
      have hlen : (k ++ ((ps.map formatSegNext).flatten)).length
          = k.length + ((ps.map formatSegNext).flatten).length :=
        List.length_append _ _
      rw [show 2 * (k ++ ((ps.map formatSegNext).flatten)).length + 2
          = (2 * (k ++ ((ps.map formatSegNext).flatten)).length + 1) + 1 from rfl,
        pRun_key k _ _ (canonicalPath_key hcan) (sepFreePath_key hsep)
          (head_sep_flatten ps),
        pRun_tail ps _ (canonicalPath_cons hcan) (sepFreePath_cons hsep)
          (by rw [hlen]; omega)]
      rfl
    | idx n =>
      have hflat : formatPath (Seg.idx n :: ps)
          = '[' :: (natToChars n ++ (']' :: ((ps.map formatSegNext).flatten))) := by
        simp [formatPath, formatSegFirst]
      rw [hflat]
      unfold parsePath
      have hn : 1 ≤ (natToChars n).length :=
        List.length_pos.mpr (natToChars_ne_nil n)
      have hlen : ('[' :: (natToChars n ++ (']' :: ((ps.map formatSegNext).flatten)))).length
          = (natToChars n).length + ((ps.map formatSegNext).flatten).length + 2 := by
        simp [List.length_cons, List.length_append]
        omega
      rw [show 2 * ('[' :: (natToChars n ++ (']' :: ((ps.map formatSegNext).flatten)))).length + 2
          = (2 * ('[' :: (natToChars n ++ (']' :: ((ps.map formatSegNext).flatten)))).length + 1) + 1 from rfl,
        pRun_idx n _ _,
        pRun_tail ps _ (canonicalPath_cons hcan) (sepFreePath_cons hsep)
          (by rw [hlen]; omega)]
      rfl

/-- C3 witness: the amended round trip evaluated at the concrete
canonical path `tasks[12].name`. -/
theorem c3_roundTrip_witness :
    parsePath (formatPath [Seg.key "tasks".data, Seg.idx 12, Seg.key "name".data])
      = some [Seg.key "tasks".data, Seg.idx 12, Seg.key "name".data] :=
  c3_parse_format_roundTrip _ (by decide) (by decide)

/-! ## Tree update lemmas -/

theorem updField_updField (k : Str) (f g : ValueNode → ValueNode) :
    ∀ fs : List (Str × ValueNode),
    updField k g (updField k f fs) = updField k (fun v => g (f v)) fs := by
  intro fs
  induction fs with
  | nil => rfl
  | cons e fs ih =>
    by_cases h : e.1 = k
    · simp [updField, h]
    · simp [updField, h, ih]

theorem updNth_updNth (f g : ValueNode → ValueNode) :
    ∀ (xs : List ValueNode) (i : Nat),
    updNth g (updNth f xs i) i = updNth (fun x => g (f x)) xs i := by
  intro xs
  induction xs with
  | nil => intro i; rfl
  | cons x xs ih =>
    intro i
    cases i with
    | zero => rfl
    | succ i => simp [updNth, ih]

theorem updAt_updAt (p : Path) : ∀ (t : ValueNode)
    (f g : List ValueNode → List ValueNode),
    updAt (updAt t p f) p g = updAt t p (fun xs => g (f xs)) := by
  induction p with
  | nil =>
    intro t f g
    cases t <;> rfl
  | cons s p ih =>
    intro t f g
    cases s with
    | key k =>
      cases t with
      | obj fs =>
        show ValueNode.obj (updField k _ (updField k _ fs)) = _
        rw [updField_updField]
        show ValueNode.obj (updField k (fun v => updAt (updAt v p f) p g) fs) = _
        have : (fun v => updAt (updAt v p f) p g)
            = fun v => updAt v p (fun xs => g (f xs)) := funext fun v => ih v f g
        rw [this]
        rfl
      | scalar s => rfl
      | list xs => rfl
    | idx i =>
      cases t with
      | list xs =>
        show ValueNode.list (updNth _ (updNth _ xs i) i) = _
        rw [updNth_updNth]
        have : (fun x => updAt (updAt x p f) p g)
            = fun x => updAt x p (fun xs => g (f xs)) := funext fun x => ih x f g
        rw [this]
        rfl
      | scalar s => rfl
      | obj fs => rfl

theorem lookupField_updField (k : Str) (f : ValueNode → ValueNode) :
    ∀ (fs : List (Str × ValueNode)) (v : ValueNode), lookupField k fs = some v →
    lookupField k (updField k f fs) = some (f v) := by
  intro fs
  induction fs with
  | nil => intro v h; simp [lookupField] at h
  | cons e fs ih =>
    intro v h
    by_cases he : e.1 = k
    · simp [lookupField, he] at h
      simp [updField, lookupField, he, h]
    · simp [lookupField, he] at h
      simp [updField, lookupField, he, ih v h]

theorem get?_updNth (f : ValueNode → ValueNode) :
    ∀ (xs : List ValueNode) (i : Nat) (x : ValueNode), xs.get? i = some x →
    (updNth f xs i).get? i = some (f x) := by
  intro xs
  induction xs with
  | nil => intro i x h; cases i <;> exact Option.noConfusion h
  | cons y xs ih =>
    intro i x h
    cases i with
    | zero =>
      have h' : y = x := by injection h
      subst h'
      rfl
    | succ i =>
      exact ih i x h

theorem getNode_updAt (p : Path) : ∀ (t : ValueNode) (l : List ValueNode)
    (f : List ValueNode → List ValueNode), getNode t p = some (.list l) →
    getNode (updAt t p f) p = some (.list (f l)) := by
  induction p with
  | nil =>
    intro t l f h
    simp [getNode] at h
    subst h
    rfl
  | cons s p ih =>
    intro t l f h
    cases s with
    | key k =>
      cases t with
      | obj fs =>
        simp only [getNode] at h
        cases hv : lookupField k fs with
        | none => rw [hv] at h; simp at h
        | some v =>
          rw [hv] at h
          show getNode (ValueNode.obj (updField k (fun w => updAt w p f) fs)) _ = _
          simp only [getNode, lookupField_updField k _ fs v hv]
          exact ih v l f h
      | scalar s => simp [getNode] at h
      | list xs => simp [getNode] at h
    | idx i =>
      cases t with
      | list xs =>
        simp only [getNode] at h
        cases hx : xs.get? i with
        | none => rw [hx] at h; simp at h
        | some x =>
          rw [hx] at h
          show getNode (ValueNode.list (updNth (fun w => updAt w p f) xs i)) _ = _
          simp only [getNode, get?_updNth _ xs i x hx]
          exact ih x l f h
      | scalar s => simp [getNode] at h
      | obj fs => simp [getNode] at h

theorem updField_congr (k : Str) (f g : ValueNode → ValueNode) :
    ∀ (fs : List (Str × ValueNode)) (v : ValueNode), lookupField k fs = some v →
    f v = g v → updField k f fs = updField k g fs := by
  intro fs
  induction fs with
  | nil => intro v h _; simp [lookupField] at h
  | cons e fs ih =>
    intro v h hfg
    by_cases he : e.1 = k
    · simp [lookupField, he] at h
      simp [updField, he, h, hfg]
    · simp [lookupField, he] at h
      simp [updField, he, ih v h hfg]

theorem updNth_congr (f g : ValueNode → ValueNode) :
    ∀ (xs : List ValueNode) (i : Nat) (x : ValueNode), xs.get? i = some x →
    f x = g x → updNth f xs i = updNth g xs i := by
  intro xs
  induction xs with
  | nil => intro i x h _; cases i <;> exact Option.noConfusion h
  | cons y xs ih =>
    intro i x h hfg
    cases i with
    | zero =>
      have h' : y = x := by injection h
      subst h'
      simp [updNth, hfg]
    | succ i =>
      simp [updNth, ih i x h hfg]

theorem updAt_congr (p : Path) : ∀ (t : ValueNode) (l : List ValueNode)
    (f g : List ValueNode → List ValueNode), getNode t p = some (.list l) →
    f l = g l → updAt t p f = updAt t p g := by
  induction p with
  | nil =>
    intro t l f g h hfg
    simp [getNode] at h
    subst h
    simp [updAt, hfg]
  | cons s p ih =>
    intro t l f g h hfg
    cases s with
    | key k =>
      cases t with
      | obj fs =>
        simp only [getNode] at h
        cases hv : lookupField k fs with
        | none => rw [hv] at h; simp at h
        | some v =>
          rw [hv] at h
          show ValueNode.obj _ = ValueNode.obj _
          rw [updField_congr k (fun w => updAt w p f) (fun w => updAt w p g)
            fs v hv (ih v l f g h hfg)]
      | scalar s => simp [getNode] at h
      | list xs => simp [getNode] at h
    | idx i =>
      cases t with
      | list xs =>
        simp only [getNode] at h
        cases hx : xs.get? i with
        | none => rw [hx] at h; simp at h
        | some x =>
          rw [hx] at h
          show ValueNode.list _ = ValueNode.list _
          rw [updNth_congr (fun w => updAt w p f) (fun w => updAt w p g)
            xs i x hx (ih x l f g h hfg)]
      | scalar s => simp [getNode] at h
      | obj fs => simp [getNode] at h

theorem updField_id (k : Str) (f : ValueNode → ValueNode) :
    ∀ (fs : List (Str × ValueNode)) (v : ValueNode), lookupField k fs = some v →
    f v = v → updField k f fs = fs := by
  intro fs
  induction fs with
  | nil => intro v h _; simp [lookupField] at h
  | cons e fs ih =>
    intro v h hf
    by_cases he : e.1 = k
    · simp [lookupField, he] at h
      simp [updField, he, h, hf]
      rw [← he, ← h]
    · simp [lookupField, he] at h
      simp [updField, he, ih v h hf]

theorem updNth_id (f : ValueNode → ValueNode) :
    ∀ (xs : List ValueNode) (i : Nat) (x : ValueNode), xs.get? i = some x →
    f x = x → updNth f xs i = xs := by
  intro xs
  induction xs with
  | nil => intro i x h _; cases i <;> exact Option.noConfusion h
  | cons y xs ih =>
    intro i x h hf
    cases i with
    | zero =>
      have h' : y = x := by injection h
      subst h'
      simp [updNth, hf]
    | succ i =>
      simp [updNth, ih i x h hf]

theorem updAt_id (p : Path) : ∀ (t : ValueNode) (l : List ValueNode)
    (f : List ValueNode → List ValueNode), getNode t p = some (.list l) →
    f l = l → updAt t p f = t := by
  induction p with
  | nil =>
    intro t l f h hf
    simp [getNode] at h
    subst h
    simp [updAt, hf]
  | cons s p ih =>
    intro t l f h hf
    cases s with
    | key k =>
      cases t with
      | obj fs =>
        simp only [getNode] at h
        cases hv : lookupField k fs with
        | none => rw [hv] at h; simp at h
        | some v =>
          rw [hv] at h
          show ValueNode.obj _ = ValueNode.obj fs
          rw [updField_id k _ fs v hv (ih v l f h hf)]
      | scalar s => simp [getNode] at h
      | list xs => simp [getNode] at h
    | idx i =>
      cases t with
      | list xs =>
        simp only [getNode] at h
        cases hx : xs.get? i with
        | none => rw [hx] at h; simp at h
        | some x =>
          rw [hx] at h
          show ValueNode.list _ = ValueNode.list xs
          rw [updNth_id _ xs i x hx (ih x l f h hf)]
      | scalar s => simp [getNode] at h
      | obj fs => simp [getNode] at h

/-! ## Claims C4 and C5: structural mutator algebra -/

/-- C4 counterexample: on the tree `{t: [a, b]}` a second `ListRemove(t, 0)`
is not a no-op — it removes the element that shifted into position 0 — so
double application does not equal single application. -/
theorem c4_remove_counterexample :
    applyIntent
        (applyIntent
          (ValueNode.obj [(['t'], .list [.scalar ['a'], .scalar ['b']])])
          (.listRemove [Seg.key ['t']] 0))
        (.listRemove [Seg.key ['t']] 0)
      ≠ applyIntent
          (ValueNode.obj [(['t'], .list [.scalar ['a'], .scalar ['b']])])
          (.listRemove [Seg.key ['t']] 0) := by
  intro h
  have h2 : ValueNode.obj [(['t'], .list [])]
      = ValueNode.obj [(['t'], .list [.scalar ['b']])] := h
  simp at h2

/-- C4 (amended): `ListRemove(path, i)` applied twice equals applied once
provided the list at `path` has length at most `i + 1` (the second
application is then a no-op); in particular, removal at an absent index
(`i` at or past the length) leaves the tree unchanged. -/
theorem c4_remove_idempotent (t : ValueNode) (p : Path) (i : Nat)
    (l : List ValueNode) (h : getNode t p = some (.list l))
    (hi : l.length ≤ i + 1) :
    applyIntent (applyIntent t (.listRemove p i)) (.listRemove p i)
        = applyIntent t (.listRemove p i)
      ∧ (l.length ≤ i → applyIntent t (.listRemove p i) = t) := by
  constructor
  · show updAt (updAt t p (listRemoveOp i)) p (listRemoveOp i) = _
    rw [updAt_updAt]
    refine updAt_congr p t l _ _ h ?_
    by_cases hlt : i < l.length
    · have hlen : (listRemoveOp i l).length = i := by
        simp [listRemoveOp, hlt, removeAt]
        omega
      show (if i < (listRemoveOp i l).length then removeAt (listRemoveOp i l) i
        else listRemoveOp i l) = listRemoveOp i l
      rw [if_neg (by omega)]
    · show listRemoveOp i (listRemoveOp i l) = listRemoveOp i l
      simp [listRemoveOp, hlt]
  · intro hle
    refine updAt_id p t l _ h ?_
    have : ¬ i < l.length := by omega
    simp [listRemoveOp, this]

/-- C4 witness: the amended idempotence evaluated on the concrete tree
`{t: [a]}` with removal index 0 (the list length 1 is at most 0 + 1). -/
theorem c4_remove_idempotent_witness :
    applyIntent
        (applyIntent (ValueNode.obj [(['t'], .list [.scalar ['a']])])
          (.listRemove [Seg.key ['t']] 0))
        (.listRemove [Seg.key ['t']] 0)
      = applyIntent (ValueNode.obj [(['t'], .list [.scalar ['a']])])
          (.listRemove [Seg.key ['t']] 0) :=
  (c4_remove_idempotent (ValueNode.obj [(['t'], .list [.scalar ['a']])])
    [Seg.key ['t']] 0 [.scalar ['a']] rfl (by decide)).1

/-- C5: for every tree holding a list at `path`, `ListReorder(path, from,
to)` rewrites that list to a permutation of itself, preserving the
multiset of elements and the length. -/
theorem c5_reorder_perm (t : ValueNode) (p : Path) (src dst : Nat)
    (l : List ValueNode) (h : getNode t p = some (.list l)) :
    getNode (applyIntent t (.listReorder p src dst)) p
        = some (.list (listReorderOp src dst l))
      ∧ (listReorderOp src dst l).Perm l
      ∧ (listReorderOp src dst l).length = l.length := by
  refine ⟨getNode_updAt p t l _ h, listReorderOp_perm src dst l,
    (listReorderOp_perm src dst l).length_eq⟩

/-- C5 witness: reordering `[a, b, c]` at `t` from position 0 to
position 2 yields a permutation of the original list of the same
length. -/
theorem c5_reorder_perm_witness :
    getNode
        (applyIntent
          (ValueNode.obj
            [(['t'], .list [.scalar ['a'], .scalar ['b'], .scalar ['c']])])
          (.listReorder [Seg.key ['t']] 0 2))
        [Seg.key ['t']]
      = some (.list (listReorderOp 0 2 [.scalar ['a'], .scalar ['b'], .scalar ['c']]))
      ∧ (listReorderOp 0 2 [.scalar ['a'], .scalar ['b'], .scalar ['c']]).Perm
          [.scalar ['a'], .scalar ['b'], .scalar ['c']]
      ∧ (listReorderOp 0 2
          [ValueNode.scalar ['a'], .scalar ['b'], .scalar ['c']]).length
        = [ValueNode.scalar ['a'], .scalar ['b'], .scalar ['c']].length :=
  c5_reorder_perm
    (ValueNode.obj [(['t'], .list [.scalar ['a'], .scalar ['b'], .scalar ['c']])])
    [Seg.key ['t']] 0 2 [.scalar ['a'], .scalar ['b'], .scalar ['c']] rfl

/-! ## Claim C1: the accepted verdict -/

theorem isSubmit_iff (i : Intent) : isSubmit i = true ↔ i = .submit := by
  cases i <;> simp [isSubmit]

/-- C1: for every submission, the result is accepted exactly when the
final error set is empty and the resolved intent is `Submit`; every other
intent yields a rejected result whatever the errors are. -/
theorem c1_accepted_iff (pairs : List (Str × Str)) (prev : ErrorSet)
    (validator : ValueNode → ErrorSet) :
    (processSubmission pairs prev validator).accepted = true
      ↔ ((processSubmission pairs prev validator).errors = []
          ∧ (processSubmission pairs prev validator).intent = .submit) := by
  show (isSubmit _ && List.isEmpty _) = true ↔ _
  rw [Bool.and_eq_true, isSubmit_iff, List.isEmpty_iff]
  exact and_comm

/-! ## Claim C2: error re-addressing -/

theorem restAfter_append (q r : Path) : restAfter q (q ++ r) = some r := by
  induction q with
  | nil => cases r <;> rfl
  | cons a q ih => simp [restAfter, ih]

/-- C2: the error mapper re-addresses previous error paths elementwise
through the mutator's index-shift transform: after `ListInsert(q, i)` an
error at sibling index `j ≥ i` moves to `j + 1` while `j < i` stays; an
error addressed to the index removed by `ListRemove(q, i)` is dropped. -/
theorem c2_readdress (q : Path) (i j : Nat) (tail : Path) (msgs : List Str) :
    (i ≤ j →
      readdressErrors (.listInsert q (some i) none)
          [(q ++ .idx j :: tail, msgs)]
        = [(q ++ .idx (j + 1) :: tail, msgs)])
    ∧ (j < i →
      readdressErrors (.listInsert q (some i) none)
          [(q ++ .idx j :: tail, msgs)]
        = [(q ++ .idx j :: tail, msgs)])
    ∧ readdressErrors (.listRemove q i) [(q ++ .idx i :: tail, msgs)] = []
    ∧ (∀ (intent : Intent) (e : Path × List Str) (prev : ErrorSet),
      readdressErrors intent (e :: prev)
        = readdressErrors intent [e] ++ readdressErrors intent prev) := by
  refine ⟨?_, ?_, ?_, ?_⟩
  · intro hij
    simp [readdressErrors, shiftForIntent, shiftInsert, restAfter_append, hij]
  · intro hij
    have : ¬ i ≤ j := by omega
    simp [readdressErrors, shiftForIntent, shiftInsert, restAfter_append, this]
  · simp [readdressErrors, shiftForIntent, shiftRemove, restAfter_append]
  · intro intent e prev
    simp only [readdressErrors, List.filterMap_cons]
    cases shiftForIntent intent e.1 <;> simp

/-- C2 witness: the spec's own example — the error set
`{tasks[1].name: ["required"]}` under `ListInsert(tasks, 0)` maps to
`{tasks[2].name: ["required"]}`. -/
theorem c2_readdress_witness :
    readdressErrors (.listInsert [Seg.key "tasks".data] (some 0) none)
        [([Seg.key "tasks".data] ++ .idx 1 :: [Seg.key "name".data],
          ["required".data])]
      = [([Seg.key "tasks".data] ++ .idx 2 :: [Seg.key "name".data],
          ["required".data])] :=
  (c2_readdress [Seg.key "tasks".data] 0 1 [Seg.key "name".data]
    ["required".data]).1 (by decide)

/-! ## Claim C6: intent resolution never fails -/

/-- C6: the intent resolver is total — an absent carrier resolves to
`Submit` with no diagnostic, and a malformed carrier string signals
`UnknownIntent` (the `true` flag) while still resolving to `Submit`. -/
theorem c6_resolve_total :
    resolveIntent none = (.submit, false)
      ∧ ∀ s : Str, parseIntentStr s = none
          → resolveIntent (some s) = (.submit, true) := by
  refine ⟨rfl, ?_⟩
  intro s h
  simp [resolveIntent, h]

/-- C6 witness: the malformed carrier string `bogus` resolves to `Submit`
with the `UnknownIntent` diagnostic raised. -/
theorem c6_resolve_total_witness :
    resolveIntent (some "bogus".data) = (.submit, true) :=
  c6_resolve_total.2 "bogus".data rfl

/-! ## Claim C7: the carrier is stripped before validation -/

/-- C7: the tree handed to the validator is built from exactly the pairs
that do not carry the reserved intent name — the carrier pairs are
removed, every other pair survives, and the surviving pairs keep their
relative order (a sublist of the input). -/
theorem c7_carrier_stripped (pairs : List (Str × Str)) (prev : ErrorSet)
    (validator : ValueNode → ErrorSet) :
    (processSubmission pairs prev validator).payload
        = applyIntent (buildTree (removeCarrier pairs))
            (resolveIntent (findCarrier pairs)).1
      ∧ (∀ nv : Str × Str,
          nv ∈ removeCarrier pairs ↔ (nv ∈ pairs ∧ ¬ nv.1 = INTENT))
      ∧ List.Sublist (removeCarrier pairs) pairs := by
  refine ⟨rfl, ?_, ?_⟩
  · intro nv
    induction pairs with
    | nil => simp [removeCarrier]
    | cons pr rest ih =>
      by_cases h : pr.1 = INTENT
      · rw [removeCarrier, if_pos h, ih]
        constructor
        · intro ⟨h1, h2⟩
          exact ⟨List.mem_cons_of_mem pr h1, h2⟩
        · intro ⟨h1, h2⟩
          cases List.mem_cons.mp h1 with
          | inl he => exact absurd (he ▸ h) h2
          | inr hm => exact ⟨hm, h2⟩
      · rw [removeCarrier, if_neg h]
        constructor
        · intro hm
          cases List.mem_cons.mp hm with
          | inl he => exact ⟨he ▸ List.mem_cons_self pr rest, he ▸ h⟩
          | inr hm2 =>
            have := ih.mp hm2
            exact ⟨List.mem_cons_of_mem pr this.1, this.2⟩
        · intro ⟨h1, h2⟩
          cases List.mem_cons.mp h1 with
          | inl he => exact he ▸ List.mem_cons_self pr _
          | inr hm2 => exact List.mem_cons_of_mem pr (ih.mpr ⟨hm2, h2⟩)
  · induction pairs with
    | nil => simp [removeCarrier]
    | cons pr rest ih =>
      by_cases h : pr.1 = INTENT
      · rw [removeCarrier, if_pos h]
        exact ih.cons pr
      · rw [removeCarrier, if_neg h]
        exact ih.cons₂ pr

/-! ## Claim C8: targeted validation keeps unrelated errors -/

theorem errLookup_filter (P : Path → Bool) (q : Path) :
    ∀ es : ErrorSet,
    errLookup q (es.filter (fun e => P e.1))
      = if P q then errLookup q es else none := by
  intro es
  induction es with
  | nil => simp [errLookup]
  | cons e es ih =>
    by_cases hq : e.1 = q
    · subst hq
      by_cases hP : P e.1
      · simp [List.filter_cons, hP, errLookup, ih]
      · simp only [List.filter_cons]
        rw [if_neg (by simp [hP]), ih]
        simp [hP]
    · by_cases hP : P e.1
      · simp only [List.filter_cons]
        rw [if_pos (by simp [hP])]
        rw [errLookup, if_neg hq, errLookup, if_neg hq, ih]
      · simp only [List.filter_cons]
        rw [if_neg (by simp [hP])]
        rw [errLookup, if_neg hq, ih]

theorem errLookup_append (q : Path) : ∀ a b : ErrorSet,
    errLookup q (a ++ b)
      = match errLookup q a with
        | some v => some v
        | none => errLookup q b := by
  intro a b
  induction a with
  | nil => simp [errLookup]
  | cons e a ih =>
    by_cases hq : e.1 = q
    · simp [errLookup, hq]
    · show errLookup q (e :: (a ++ b)) = _
      rw [errLookup, if_neg hq, errLookup, if_neg hq, ih]

/-- C8: under `Validate(p)` the error mapper replaces exactly the errors
at or under `p` with the validator's, and at every path not under `p` the
recorded errors are those of the previous result, unchanged. -/
theorem c8_validate_frame (p : Path) (prev raw : ErrorSet) (q : Path) :
    (underPath p q = false →
      errLookup q (mapErrors (.validate (some p)) prev raw)
        = errLookup q prev)
    ∧ (underPath p q = true →
      errLookup q (mapErrors (.validate (some p)) prev raw)
        = errLookup q raw) := by
  constructor
  · intro hq
    show errLookup q
        (prev.filter (fun e => !underPath p e.1)
          ++ raw.filter (fun e => underPath p e.1)) = _
    rw [errLookup_append, errLookup_filter (fun r => !underPath p r) q prev,
      errLookup_filter (fun r => underPath p r) q raw]
    rw [if_pos (by simp [hq]), if_neg (by simp [hq])]
    cases errLookup q prev <;> rfl
  · intro hq
    show errLookup q
        (prev.filter (fun e => !underPath p e.1)
          ++ raw.filter (fun e => underPath p e.1)) = _
    rw [errLookup_append, errLookup_filter (fun r => !underPath p r) q prev,
      errLookup_filter (fun r => underPath p r) q raw]
    rw [if_neg (by simp [hq]), if_pos (by simp [hq])]

/-- C8 witness: scenario C — validating `tasks[0].name` replaces the
error there with the validator's finding while the pre-existing error on
`email` is untouched. -/
theorem c8_validate_frame_witness :
    errLookup [Seg.key "email".data]
        (mapErrors
          (.validate (some [Seg.key "tasks".data, Seg.idx 0, Seg.key "name".data]))
          [([Seg.key "email".data], ["invalid".data])]
          [([Seg.key "tasks".data, Seg.idx 0, Seg.key "name".data],
            ["required".data])])
      = errLookup [Seg.key "email".data]
          [([Seg.key "email".data], ["invalid".data])] :=
  (c8_validate_frame [Seg.key "tasks".data, Seg.idx 0, Seg.key "name".data]
    [([Seg.key "email".data], ["invalid".data])]
    [([Seg.key "tasks".data, Seg.idx 0, Seg.key "name".data], ["required".data])]
    [Seg.key "email".data]).1 (by decide)

/-! ## Claim C9: the sequence-number guard -/

theorem runEngine_append (evs : List FormEvent) (ev : FormEvent) :
    runEngine (evs ++ [ev]) = stepEngine (runEngine evs) ev := by
  simp [runEngine, List.foldl_append]

/-- C9: submissions are tagged with strictly increasing sequence numbers
(`latest` grows by one per submission and never decreases), a validation
response whose tag differs from the current latest leaves every reachable
engine state unchanged (silent discard), and the applied-response record
changes only when the response carries the current latest tag. -/
theorem c9_sequence_guard (evs : List FormEvent) (seq : Nat)
    (errs : ErrorSet) :
    ((runEngine evs).latest ≠ seq →
        runEngine (evs ++ [.response seq errs]) = runEngine evs)
    ∧ (runEngine (evs ++ [.submit])).latest = (runEngine evs).latest + 1
    ∧ (∀ ev : FormEvent,
        (runEngine evs).latest ≤ (runEngine (evs ++ [ev])).latest)
    ∧ ((runEngine (evs ++ [.response seq errs])).lastApplied
          ≠ (runEngine evs).lastApplied
        → seq = (runEngine evs).latest) := by
  refine ⟨?_, ?_, ?_, ?_⟩
  · intro h
    rw [runEngine_append]
    show (if seq = (runEngine evs).latest then _ else _) = _
    rw [if_neg (fun he => h he.symm)]
  · rw [runEngine_append]
    rfl
  · intro ev
    rw [runEngine_append]
    cases ev with
    | submit => exact Nat.le_succ _
    | response s e =>
      simp only [stepEngine]
      by_cases hs : s = (runEngine evs).latest
      · rw [if_pos hs]
      · rw [if_neg hs]
  · intro h
    by_cases hs : seq = (runEngine evs).latest
    · exact hs
    · exfalso
      apply h
      rw [runEngine_append]
      simp only [stepEngine]
      rw [if_neg hs]

/-- C9 witness: scenario D — after six submissions (latest tag 6) whose
sixth response was applied, the late response for tag 5 is discarded:
the engine state is unchanged. -/
theorem c9_sequence_guard_witness :
    runEngine
        ((List.replicate 6 FormEvent.submit ++ [.response 6 []])
          ++ [.response 5 []])
      = runEngine (List.replicate 6 FormEvent.submit ++ [.response 6 []]) :=
  (c9_sequence_guard (List.replicate 6 FormEvent.submit ++ [.response 6 []])
    5 []).1 (by decide)

/-! ## Claim C10: client and server validation agree -/

/-- C10: in the payment route, the submission computed by the client's
`onValidate` callback coincides with the one computed by the server
action on every form data — both are `parse(formData, { schema })` with
the same zod schema. -/
theorem c10_payment_agreement (fd : List (Str × Str)) :
    paymentOnValidate fd = paymentAction fd := rfl

end Conform
